import Mathlib

/-!
# RenderPM: contour extraction from a coloured point cloud

A shallow embedding of the processing core of `Enenso-3D-Vision/RenderPM.cpp`
(the body of `main` from the point where the camera driver has delivered the
point map) together with theorems about it.

Modelling conventions
* `int` counters and sizes are natural numbers; the images handled are far
  below `2^31` elements, so no counter wraps.
* A `float` is its 32-bit pattern; the program only copies floats and tests
  them with `isnan`.
* A `cv::Mat` is a header (rows, cols, row stride) over a buffer of slots.
  `Mat::at<T>(i,j)` of a release build performs no check and addresses
  `data + i*step + j*sizeof(T)`; this is what `atVec3f`, `atVec4b`, `at8u`
  compute, with the stride counted in slots of the accessed scalar type.
* Reading `v[k]` of a `std::vector` beyond its size is undefined in C++; the
  embedding returns `none` there.
* OpenCV routines are modelled by their documented pixel semantics.
-/

namespace RenderPM

/-! ## Data model -/

/-- A 32-bit IEEE-754 value, identified by its bit pattern. -/
structure Float32 where
  bits : Nat
deriving DecidableEq, Repr

/-- The test `isnan(f)`: exponent field all ones and a non-zero mantissa. -/
def isnan (f : Float32) : Bool :=
  (f.bits / 2 ^ 23) % 256 == 255 && f.bits % 2 ^ 23 != 0

/-- The record `struct XYZ { float x, y, z; }`. -/
structure XYZ where
  x : Float32
  y : Float32
  z : Float32
deriving DecidableEq, Repr

/-- The record `struct RGBA { char r, g, b, a; }`; each field is the stored byte,
read as the value `0..255` that the conversion to `uchar` in `Vec4b(...)` yields. -/
structure RGBA where
  r : Nat
  g : Nat
  b : Nat
  a : Nat
deriving DecidableEq, Repr

/-- The OpenCV vector `cv::Vec3f`. -/
structure Vec3f where
  v0 : Float32
  v1 : Float32
  v2 : Float32
deriving DecidableEq, Repr

/-- The OpenCV vector `cv::Vec4b`. -/
structure Vec4b where
  v0 : Nat
  v1 : Nat
  v2 : Nat
  v3 : Nat
deriving DecidableEq, Repr

/-- The pixel coordinate `cv::Point` (column `x`, row `y`). -/
structure Point where
  x : Nat
  y : Nat
deriving DecidableEq, Repr

/-- A matrix `cv::Mat`: header fields and the slots of its buffer. `step` is the
distance between two rows, counted in slots. -/
structure Mat (α : Type) where
  rows : Nat
  cols : Nat
  step : Nat
  data : Nat → α

/-- The constructor `Mat(rows, cols, type)`: allocates `rows` rows of
`cols * slotsPerElem` slots each and leaves the contents `uninit` as found. -/
def Mat.create {α : Type} (rows cols slotsPerElem : Nat) (uninit : Nat → α) : Mat α :=
  { rows := rows, cols := cols, step := cols * slotsPerElem, data := uninit }

/-- Reading `m.at<Vec3f>(i,j)`: three consecutive float slots at `i*step + 3*j`. -/
def Mat.atVec3f (m : Mat Float32) (i j : Nat) : Vec3f :=
  { v0 := m.data (i * m.step + 3 * j)
    v1 := m.data (i * m.step + 3 * j + 1)
    v2 := m.data (i * m.step + 3 * j + 2) }

/-- The assignment `m.at<Vec3f>(i,j) = v`. -/
def Mat.setVec3f (m : Mat Float32) (i j : Nat) (v : Vec3f) : Mat Float32 :=
  { m with data := fun a =>
      if a = i * m.step + 3 * j then v.v0
      else if a = i * m.step + 3 * j + 1 then v.v1
      else if a = i * m.step + 3 * j + 2 then v.v2
      else m.data a }

/-- Reading `m.at<Vec4b>(i,j)`: four consecutive byte slots at `i*step + 4*j`. -/
def Mat.atVec4b (m : Mat Nat) (i j : Nat) : Vec4b :=
  { v0 := m.data (i * m.step + 4 * j)
    v1 := m.data (i * m.step + 4 * j + 1)
    v2 := m.data (i * m.step + 4 * j + 2)
    v3 := m.data (i * m.step + 4 * j + 3) }

/-- The assignment `m.at<Vec4b>(i,j) = v`. -/
def Mat.setVec4b (m : Mat Nat) (i j : Nat) (v : Vec4b) : Mat Nat :=
  { m with data := fun a =>
      if a = i * m.step + 4 * j then v.v0
      else if a = i * m.step + 4 * j + 1 then v.v1
      else if a = i * m.step + 4 * j + 2 then v.v2
      else if a = i * m.step + 4 * j + 3 then v.v3
      else m.data a }

/-! ## Point Grid Assembler (the two transfer loops) -/

/-- The inner loop `for (j ...; j < cols; j++)` of the XYZ transfer, with `n`
iterations left; `none` when `renderPointMap[counter]` is out of range. -/
def xyzInner (renderPointMap : List XYZ) (i : Nat) :
    Nat → Nat → Mat Float32 → Nat → Option (Mat Float32 × Nat)
  | 0, _, m, counter => some (m, counter)
  | n + 1, j, m, counter =>
    match renderPointMap[counter]? with
    | none => none
    | some p =>
      xyzInner renderPointMap i n (j + 1)
        (m.setVec3f i j (Vec3f.mk p.x p.y p.z)) (counter + 1)

/-- The outer loop `for (i ...; i < rows; i++)` of the XYZ transfer, with `r`
rows left. -/
def xyzOuter (renderPointMap : List XYZ) :
    Nat → Nat → Mat Float32 → Nat → Option (Mat Float32 × Nat)
  | 0, _, m, counter => some (m, counter)
  | r + 1, i, m, counter =>
    match xyzInner renderPointMap i m.cols 0 m counter with
    | none => none
    | some (m1, c1) => xyzOuter renderPointMap r (i + 1) m1 c1

/-- The inner loop of the RGBA transfer, with `n` iterations left. -/
def rgbaInner (rgbData : List RGBA) (i : Nat) :
    Nat → Nat → Mat Nat → Nat → Option (Mat Nat × Nat)
  | 0, _, m, counter => some (m, counter)
  | n + 1, j, m, counter =>
    match rgbData[counter]? with
    | none => none
    | some p =>
      rgbaInner rgbData i n (j + 1)
        (m.setVec4b i j (Vec4b.mk p.r p.g p.b p.a)) (counter + 1)

/-- The outer loop of the RGBA transfer, with `r` rows left. -/
def rgbaOuter (rgbData : List RGBA) :
    Nat → Nat → Mat Nat → Nat → Option (Mat Nat × Nat)
  | 0, _, m, counter => some (m, counter)
  | r + 1, i, m, counter =>
    match rgbaInner rgbData i m.cols 0 m counter with
    | none => none
    | some (m1, c1) => rgbaOuter rgbData r (i + 1) m1 c1

/-- Lines 150-181: `coordinateMatrix` is created as `CV_64FC3` (24 bytes, i.e.
six float slots, per element) and `colorMatrix` as `CV_8UC4` (four byte slots
per element); both are then filled from the flat vectors. `garbageF` and
`garbageB` are the contents of the freshly allocated buffers. -/
def assemble (width height : Nat) (renderPointMap : List XYZ) (rgbData : List RGBA)
    (garbageF : Nat → Float32) (garbageB : Nat → Nat) :
    Option (Mat Float32 × Mat Nat) :=
  let coordinateMatrix : Mat Float32 := Mat.create height width 6 garbageF
  let colorMatrix : Mat Nat := Mat.create height width 4 garbageB
  match xyzOuter renderPointMap coordinateMatrix.rows 0 coordinateMatrix 0 with
  | none => none
  | some (coordinateMatrix1, _) =>
    match rgbaOuter rgbData colorMatrix.rows 0 colorMatrix 0 with
    | none => none
    | some (colorMatrix1, _) => some (coordinateMatrix1, colorMatrix1)

/-! ## Binarizer and Region Normalizer (OpenCV routines on 8-bit images) -/

/-- Reading `m.at<uchar>(i,j)` of a single-channel 8-bit image. -/
def Mat.at8u (m : Mat Nat) (i j : Nat) : Nat :=
  m.data (i * m.step + j)

/-- A continuous single-channel image whose pixel `(i,j)` is `f i j`. -/
def Mat.ofPixels (rows cols : Nat) (f : Nat → Nat → Nat) : Mat Nat :=
  { rows := rows, cols := cols, step := cols, data := fun a => f (a / cols) (a % cols) }

/-- The call `cvtColor(src, dst, CV_RGB2GRAY)` on an 8-bit four-channel image:
fixed-point luminance of the first three channels, alpha ignored. -/
def cvtColorRGB2GRAY (src : Mat Nat) : Mat Nat :=
  Mat.ofPixels src.rows src.cols fun i j =>
    (4899 * (src.atVec4b i j).v0 + 9617 * (src.atVec4b i j).v1
      + 1868 * (src.atVec4b i j).v2 + 8192) / 16384

/-- The border rule `BORDER_REFLECT_101` (the default of `blur`) for a
coordinate `p` on an axis of length `len`. -/
def borderInterpolate (p : Int) (len : Nat) : Nat :=
  if len ≤ 1 then 0
  else if p < 0 then (-p).toNat
  else if (len : Int) ≤ p then (2 * (len : Int) - 2 - p).toNat
  else p.toNat

/-- The call `blur(src, dst, Size(3,3))`: rounded mean of the 3x3 neighbourhood. -/
def blur3x3 (src : Mat Nat) : Mat Nat :=
  Mat.ofPixels src.rows src.cols fun i j =>
    ((([-1, 0, 1] : List Int).map fun di =>
      (([-1, 0, 1] : List Int).map fun dj =>
        src.at8u (borderInterpolate ((i : Int) + di) src.rows)
          (borderInterpolate ((j : Int) + dj) src.cols)).sum).sum + 4) / 9

/-- One pixel of `CV_THRESH_BINARY`: `maxval` if the value exceeds `thresh`, else `0`. -/
def threshBinary (thresh maxval v : Nat) : Nat :=
  if v > thresh then maxval else 0

/-- The call `threshold(src, dst, thresh, maxval, CV_THRESH_BINARY)`. -/
def threshold (src : Mat Nat) (thresh maxval : Nat) : Mat Nat :=
  Mat.ofPixels src.rows src.cols fun i j => threshBinary thresh maxval (src.at8u i j)

/-- What the program can throw. `outOfRange` is `std::out_of_range` (raised by
`vector::at`), `cvException` is `cv::Exception`. -/
inductive Exn where
  | nxLibException : Exn
  | cString (msg : String) : Exn
  | outOfRange : Exn
  | cvException : Exn
deriving DecidableEq, Repr

/-- All pixel coordinates of an image, row by row. -/
def allPixels (img : Mat Nat) : List Point :=
  (List.range img.rows).flatMap fun i => (List.range img.cols).map fun j => Point.mk j i

/-- Two pixels are 4-connected neighbours. -/
def adjacent4 (p q : Point) : Bool :=
  (p.x == q.x && (p.y == q.y + 1 || q.y == p.y + 1)) ||
  (p.y == q.y && (p.x == q.x + 1 || q.x == p.x + 1))

/-- One round of region growing: add every pixel of value `val0` that touches
the region. -/
def growRegion (img : Mat Nat) (val0 : Nat) (region : List Point) : List Point :=
  region ++ (allPixels img).filter fun p =>
    !region.contains p && img.at8u p.y p.x == val0 && region.any (adjacent4 p)

/-- Region growing repeated `k` times. -/
def fillRegion (img : Mat Nat) (val0 : Nat) : Nat → List Point → List Point
  | 0, region => region
  | k + 1, region => fillRegion img val0 k (growRegion img val0 region)

/-- The call `floodFill(img, seed, Scalar(newVal))` with the default zero
tolerances and 4-connectivity: the connected component of pixels that equal
the seed pixel is repainted with `newVal`. A seed outside the image raises
`cv::Exception`. `rows * cols` growing rounds reach the whole component. -/
def floodFill (img : Mat Nat) (seed : Point) (newVal : Nat) : Except Exn (Mat Nat) :=
  if seed.x < img.cols ∧ seed.y < img.rows then
    let val0 := img.at8u seed.y seed.x
    let region := fillRegion img val0 (img.rows * img.cols) [seed]
    .ok (Mat.ofPixels img.rows img.cols fun i j =>
      if region.contains (Point.mk j i) then newVal else img.at8u i j)
  else .error Exn.cvException

/-- The call `bitwise_not(src, dst)` on an 8-bit image. -/
def bitwise_not (src : Mat Nat) : Mat Nat :=
  Mat.ofPixels src.rows src.cols fun i j => 255 - src.at8u i j % 256

/-- Lines 190-199: grayscale conversion, 3x3 blur and threshold at 60. -/
def binarize (colorMatrix : Mat Nat) : Mat Nat :=
  threshold (blur3x3 (cvtColorRGB2GRAY colorMatrix)) 60 255

/-! ## Contour selection and coordinate projection -/

/-- The loop of lines 231-240 over the contours not yet visited; `i` is the
index of the first of them. -/
def largestContourLoop (contourArea : List Point → ℚ) :
    List (List Point) → Nat → ℚ × Nat → ℚ × Nat
  | [], _, st => st
  | c :: rest, i, (largestArea, largestIndex) =>
    if contourArea c > largestArea then
      largestContourLoop contourArea rest (i + 1) (contourArea c, i)
    else
      largestContourLoop contourArea rest (i + 1) (largestArea, largestIndex)

/-- The value of `largestIndex` after the loop (lines 229-240). -/
def largestIndex (contourArea : List Point → ℚ) (contours : List (List Point)) : Nat :=
  (largestContourLoop contourArea contours 0 (0, 0)).2

/-- The shoelace sum over consecutive points, starting from `prev`. -/
def shoelaceSum : Point → List Point → Int
  | _, [] => 0
  | prev, p :: rest =>
    (prev.x : Int) * p.y - (prev.y : Int) * p.x + shoelaceSum p rest

/-- The routine `contourArea(c, false)` in exact arithmetic: half the absolute
shoelace sum of the closed polygon. -/
def shoelaceArea (c : List Point) : ℚ :=
  match c.getLast? with
  | none => 0
  | some last => |(shoelaceSum last c : ℚ)| / 2

/-- What is sent to an output stream with `<<`. -/
inductive OutItem where
  | flt (f : Float32) : OutItem
  | str (s : String) : OutItem
deriving DecidableEq, Repr

/-- The loop of lines 249-259: `outfile` is what has been written so far. -/
def writeContourPoints (coordinateMatrix : Mat Float32) :
    List Point → List OutItem → List OutItem
  | [], outfile => outfile
  | coordinate :: rest, outfile =>
    if !isnan (coordinateMatrix.atVec3f coordinate.y coordinate.x).v0 then
      writeContourPoints coordinateMatrix rest
        (outfile ++
          [OutItem.flt (coordinateMatrix.atVec3f coordinate.y coordinate.x).v0, OutItem.str " ",
           OutItem.flt (coordinateMatrix.atVec3f coordinate.y coordinate.x).v1, OutItem.str " ",
           OutItem.flt (coordinateMatrix.atVec3f coordinate.y coordinate.x).v2, OutItem.str ";\n"])
    else
      writeContourPoints coordinateMatrix rest outfile

/-- The number of lines (boundary points) in what was written. -/
def pointCount (outfile : List OutItem) : Nat :=
  outfile.count (OutItem.str ";\n")

/-- One output line `x y z;` as the three `<<` statements of lines 255-257 send it. -/
def pointLine (v : Vec3f) : List OutItem :=
  [OutItem.flt v.v0, OutItem.str " ", OutItem.flt v.v1, OutItem.str " ",
   OutItem.flt v.v2, OutItem.str ";\n"]

/-- The Boundary Point Set as the specification words it: the position-grid
entries of the contour pixels, in traversal order, without those whose
x-component is the sentinel. -/
def boundaryPointSet (positionGrid : Mat Float32) (contour : List Point) : List Vec3f :=
  (contour.map fun p => positionGrid.atVec3f p.y p.x).filter fun v => !isnan v.v0

/-! ## The pipeline from the assembled matrices to the output files -/

/-- OpenCV routines used by the pipeline whose results the program only passes on. -/
structure Lib where
  morphologyClose : Mat Nat → Mat Nat
  findContours : Mat Nat → List (List Point)
  contourArea : List Point → ℚ
  drawContours : Mat Nat → List (List Point) → Mat Nat

/-- Contents of a file the program creates. -/
inductive FileData where
  | image (m : Mat Nat) : FileData
  | text (items : List OutItem) : FileData

/-- A run: the files created so far, in order, and how the run ended. -/
structure Run where
  files : List (String × FileData)
  outcome : Except Exn Unit

/-- The mask handed to `findContours` (lines 190-218), when no routine throws. -/
def normalizedMask (lib : Lib) (colorMatrix : Mat Nat) : Except Exn (Mat Nat) :=
  match floodFill (binarize colorMatrix) (Point.mk 0 0) 255 with
  | .error e => .error e
  | .ok filled => .ok (lib.morphologyClose (bitwise_not filled))

/-- Lines 185-269 of `main`, statement by statement. -/
def contourPipeline (lib : Lib) (colorMatrix : Mat Nat) (coordinateMatrix : Mat Float32) : Run :=
  let gray := cvtColorRGB2GRAY colorMatrix
  let files1 := [("gray_image.jpg", FileData.image gray)]
  let thresholded := threshold (blur3x3 gray) 60 255
  let files2 := files1 ++ [("threshold_image.jpg", FileData.image thresholded)]
  match floodFill thresholded (Point.mk 0 0) 255 with
  | .error e => { files := files2, outcome := .error e }
  | .ok filled =>
    let inverted := bitwise_not filled
    let files3 := files2 ++ [("threshold_image_inverted.jpg", FileData.image inverted)]
    let closed := lib.morphologyClose inverted
    let files4 := files3 ++ [("morph_closing_image.jpg", FileData.image closed)]
    let contours := lib.findContours closed
    let idx := largestIndex lib.contourArea contours
    match contours[idx]? with
    | none => { files := files4, outcome := .error Exn.outOfRange }
    | some largestContour =>
      let outfile := writeContourPoints coordinateMatrix largestContour []
      let files5 := files4 ++ [("contour_points.txt", FileData.text outfile)]
      let drawn := lib.drawContours colorMatrix [largestContour]
      let files6 := files5 ++ [("contoured_wound.jpg", FileData.image drawn)]
      { files := files6, outcome := .ok () }

/-- How the process ends. -/
inductive Exit where
  | returned (code : Int) : Exit
  | terminated (e : Exn) : Exit
deriving DecidableEq, Repr

/-- The two handlers of lines 289-297: `catch (NxLibException)` and
`catch (char const*)`. -/
def caughtByMain : Exn → Bool
  | Exn.nxLibException => true
  | Exn.cString _ => true
  | Exn.outOfRange => false
  | Exn.cvException => false

/-- The end of `main`: a handled exception is printed and `main` returns 0; an
exception without handler leaves `main` and the process is terminated. -/
def mainExit (outcome : Except Exn Unit) : Exit :=
  match outcome with
  | .ok _ => Exit.returned 0
  | .error e => if caughtByMain e then Exit.returned 0 else Exit.terminated e

/-! ## Concrete inputs used to exercise the theorems -/

/-- A quiet NaN (`0x7FC00000`). -/
def nanF : Float32 := { bits := 2143289344 }

/-- The value `1.0f` (`0x3F800000`). -/
def oneF : Float32 := { bits := 1065353216 }

/-- The value `2.0f` (`0x40000000`). -/
def twoF : Float32 := { bits := 1073741824 }

/-- A contour around one pixel cell (area 1). -/
def unitSquare : List Point := [Point.mk 0 0, Point.mk 1 0, Point.mk 1 1, Point.mk 0 1]

/-- A contour of area 4. -/
def bigSquare : List Point := [Point.mk 0 0, Point.mk 2 0, Point.mk 2 2, Point.mk 0 2]

/-- The same square traversed the other way round (area 4 again). -/
def bigSquareRev : List Point := [Point.mk 0 2, Point.mk 2 2, Point.mk 2 0, Point.mk 0 0]

/-- A 2x2 smoothed image with a light top-left corner and two dark pixels. -/
def lightCorner : Mat Nat :=
  Mat.ofPixels 2 2 fun i j => if i = j then 200 else 10

/-- A 1x1 white colour image. -/
def whitePixel : Mat Nat := Mat.create 1 1 4 fun _ => 255

/-- A 1x1 position matrix holding no depth. -/
def nanPixel : Mat Float32 := Mat.create 1 1 6 fun _ => nanF

/-- A 1x2 position matrix: entry `(0,0)` is `(1,1,1)`, entry `(0,1)` has a NaN
x-component and valid y and z. -/
def halfValid : Mat Float32 :=
  Mat.create 1 2 6 fun a => if a = 3 then nanF else oneF

/-- A contour visiting both pixels of a 1x2 grid. -/
def twoPixels : List Point := [Point.mk 0 0, Point.mk 1 0]

/-- Library stand-ins for a mask without any contour. -/
def emptyLib : Lib :=
  { morphologyClose := fun m => m
    findContours := fun _ => []
    contourArea := shoelaceArea
    drawContours := fun m _ => m }

/-! ## Facts about the transfer loops -/

theorem xyzInner_spec (rpm : List XYZ) (i : Nat) :
    ∀ (n j : Nat) (m : Mat Float32) (counter : Nat), counter + n ≤ rpm.length →
      ∃ m1, xyzInner rpm i n j m counter = some (m1, counter + n) ∧
        m1.rows = m.rows ∧ m1.cols = m.cols ∧ m1.step = m.step ∧
        (∀ a, a < i * m.step + 3 * j → m1.data a = m.data a) ∧
        (∀ a, i * m.step + 3 * (j + n) ≤ a → m1.data a = m.data a) ∧
        (∀ t p, t < n → rpm[counter + t]? = some p →
          m1.atVec3f i (j + t) = Vec3f.mk p.x p.y p.z) := by
  intro n
  induction n with
  | zero =>
    intro j m counter _
    exact ⟨m, rfl, rfl, rfl, rfl, fun _ _ => rfl, fun _ _ => rfl,
      fun t p ht _ => absurd ht (Nat.not_lt_zero t)⟩
  | succ n ih =>
    intro j m counter hlen
    have hc : counter < rpm.length := by omega
    obtain ⟨m1, hrun, hr, hcol, hst, hlow, hhigh, hcell⟩ :=
      ih (j + 1) (m.setVec3f i j (Vec3f.mk rpm[counter].x rpm[counter].y rpm[counter].z))
        (counter + 1) (by omega)
    refine ⟨m1, ?_, hr, hcol, hst, ?_, ?_, ?_⟩
    · simp only [xyzInner, List.getElem?_eq_getElem hc]
      rw [hrun]
      congr 2
      omega
    · intro a ha
      rw [hlow a (by simp only [Mat.setVec3f]; omega)]
      simp only [Mat.setVec3f]
      rw [if_neg (by omega), if_neg (by omega), if_neg (by omega)]
    · intro a ha
      rw [hhigh a (by simp only [Mat.setVec3f]; omega)]
      simp only [Mat.setVec3f]
      rw [if_neg (by omega), if_neg (by omega), if_neg (by omega)]
    · intro t p ht hp
      cases t with
      | zero =>
        simp only [Nat.add_zero, List.getElem?_eq_getElem hc, Option.some.injEq] at hp
        subst hp
        simp only [Mat.atVec3f, Nat.add_zero]
        have hs : (m.setVec3f i j
            (Vec3f.mk rpm[counter].x rpm[counter].y rpm[counter].z)).step = m.step := rfl
        rw [hst, hs]
        rw [hlow _ (by rw [hs]; omega), hlow _ (by rw [hs]; omega), hlow _ (by rw [hs]; omega)]
        simp [Mat.setVec3f]
      | succ t =>
        have := hcell t p (by omega) (by rw [← hp]; congr 1; omega)
        rw [← this]
        congr 1
        omega

theorem xyzOuter_spec (rpm : List XYZ) :
    ∀ (r i : Nat) (m : Mat Float32) (counter : Nat),
      counter + r * m.cols ≤ rpm.length → 3 * m.cols ≤ m.step →
      ∃ m1, xyzOuter rpm r i m counter = some (m1, counter + r * m.cols) ∧
        m1.rows = m.rows ∧ m1.cols = m.cols ∧ m1.step = m.step ∧
        (∀ a, a < i * m.step → m1.data a = m.data a) ∧
        (∀ s t p, s < r → t < m.cols → rpm[counter + s * m.cols + t]? = some p →
          m1.atVec3f (i + s) t = Vec3f.mk p.x p.y p.z) := by
  intro r
  induction r with
  | zero =>
    intro i m counter _ _
    exact ⟨m, by simp [xyzOuter], rfl, rfl, rfl, fun _ _ => rfl,
      fun s t p hs _ _ => absurd hs (Nat.not_lt_zero s)⟩
  | succ r ih =>
    intro i m counter hlen hstep
    have hmul : (r + 1) * m.cols = r * m.cols + m.cols := Nat.succ_mul r m.cols
    obtain ⟨m1, hrun1, hr1, hc1, hs1, hlow1, -, hcell1⟩ :=
      xyzInner_spec rpm i m.cols 0 m counter (by omega)
    obtain ⟨m2, hrun2, hr2, hc2, hs2, hlow2, hcell2⟩ :=
      ih (i + 1) m1 (counter + m.cols) (by rw [hc1]; omega) (by rw [hc1, hs1]; exact hstep)
    rw [hc1] at hrun2 hcell2
    rw [hs1] at hlow2
    have hrow : (i + 1) * m.step = i * m.step + m.step := Nat.succ_mul i m.step
    refine ⟨m2, ?_, hr2.trans hr1, hc2.trans hc1, hs2.trans hs1, ?_, ?_⟩
    · simp only [xyzOuter, hrun1, hrun2]
      congr 2
      omega
    · intro a ha
      rw [hlow2 a (by omega), hlow1 a (by omega)]
    · intro s t p hs ht hp
      cases s with
      | zero =>
        have h0 := hcell1 t p ht (by rw [← hp]; congr 1; omega)
        rw [Nat.zero_add] at h0
        rw [← h0, Nat.add_zero]
        simp only [Mat.atVec3f, hs2, hs1]
        rw [hlow2 _ (by omega), hlow2 _ (by omega), hlow2 _ (by omega)]
      | succ s =>
        have hidx : counter + m.cols + s * m.cols + t = counter + (s + 1) * m.cols + t := by
          rw [Nat.succ_mul]; omega
        have h1 := hcell2 s t p (by omega) ht (by rw [hidx]; exact hp)
        rw [← h1]
        congr 1
        omega

theorem rgbaInner_spec (rgb : List RGBA) (i : Nat) :
    ∀ (n j : Nat) (m : Mat Nat) (counter : Nat), counter + n ≤ rgb.length →
      ∃ m1, rgbaInner rgb i n j m counter = some (m1, counter + n) ∧
        m1.rows = m.rows ∧ m1.cols = m.cols ∧ m1.step = m.step ∧
        (∀ a, a < i * m.step + 4 * j → m1.data a = m.data a) ∧
        (∀ t p, t < n → rgb[counter + t]? = some p →
          m1.atVec4b i (j + t) = Vec4b.mk p.r p.g p.b p.a) := by
  intro n
  induction n with
  | zero =>
    intro j m counter _
    exact ⟨m, rfl, rfl, rfl, rfl, fun _ _ => rfl,
      fun t p ht _ => absurd ht (Nat.not_lt_zero t)⟩
  | succ n ih =>
    intro j m counter hlen
    have hc : counter < rgb.length := by omega
    obtain ⟨m1, hrun, hr, hcol, hst, hlow, hcell⟩ :=
      ih (j + 1)
        (m.setVec4b i j (Vec4b.mk rgb[counter].r rgb[counter].g rgb[counter].b rgb[counter].a))
        (counter + 1) (by omega)
    refine ⟨m1, ?_, hr, hcol, hst, ?_, ?_⟩
    · simp only [rgbaInner, List.getElem?_eq_getElem hc]
      rw [hrun]
      congr 2
      omega
    · intro a ha
      rw [hlow a (by simp only [Mat.setVec4b]; omega)]
      simp only [Mat.setVec4b]
      rw [if_neg (by omega), if_neg (by omega), if_neg (by omega), if_neg (by omega)]
    · intro t p ht hp
      cases t with
      | zero =>
        simp only [Nat.add_zero, List.getElem?_eq_getElem hc, Option.some.injEq] at hp
        subst hp
        simp only [Mat.atVec4b, Nat.add_zero]
        have hs : (m.setVec4b i j (Vec4b.mk rgb[counter].r rgb[counter].g rgb[counter].b
            rgb[counter].a)).step = m.step := rfl
        rw [hst, hs]
        rw [hlow _ (by rw [hs]; omega), hlow _ (by rw [hs]; omega),
          hlow _ (by rw [hs]; omega), hlow _ (by rw [hs]; omega)]
        simp [Mat.setVec4b]
      | succ t =>
        have := hcell t p (by omega) (by rw [← hp]; congr 1; omega)
        rw [← this]
        congr 1
        omega

theorem rgbaOuter_spec (rgb : List RGBA) :
    ∀ (r i : Nat) (m : Mat Nat) (counter : Nat),
      counter + r * m.cols ≤ rgb.length → 4 * m.cols ≤ m.step →
      ∃ m1, rgbaOuter rgb r i m counter = some (m1, counter + r * m.cols) ∧
        m1.rows = m.rows ∧ m1.cols = m.cols ∧ m1.step = m.step ∧
        (∀ a, a < i * m.step → m1.data a = m.data a) ∧
        (∀ s t p, s < r → t < m.cols → rgb[counter + s * m.cols + t]? = some p →
          m1.atVec4b (i + s) t = Vec4b.mk p.r p.g p.b p.a) := by
  intro r
  induction r with
  | zero =>
    intro i m counter _ _
    exact ⟨m, by simp [rgbaOuter], rfl, rfl, rfl, fun _ _ => rfl,
      fun s t p hs _ _ => absurd hs (Nat.not_lt_zero s)⟩
  | succ r ih =>
    intro i m counter hlen hstep
    have hmul : (r + 1) * m.cols = r * m.cols + m.cols := Nat.succ_mul r m.cols
    obtain ⟨m1, hrun1, hr1, hc1, hs1, hlow1, hcell1⟩ :=
      rgbaInner_spec rgb i m.cols 0 m counter (by omega)
    obtain ⟨m2, hrun2, hr2, hc2, hs2, hlow2, hcell2⟩ :=
      ih (i + 1) m1 (counter + m.cols) (by rw [hc1]; omega) (by rw [hc1, hs1]; exact hstep)
    rw [hc1] at hrun2 hcell2
    rw [hs1] at hlow2
    have hrow : (i + 1) * m.step = i * m.step + m.step := Nat.succ_mul i m.step
    refine ⟨m2, ?_, hr2.trans hr1, hc2.trans hc1, hs2.trans hs1, ?_, ?_⟩
    · simp only [rgbaOuter, hrun1, hrun2]
      congr 2
      omega
    · intro a ha
      rw [hlow2 a (by omega), hlow1 a (by omega)]
    · intro s t p hs ht hp
      cases s with
      | zero =>
        have h0 := hcell1 t p ht (by rw [← hp]; congr 1; omega)
        rw [Nat.zero_add] at h0
        rw [← h0, Nat.add_zero]
        simp only [Mat.atVec4b, hs2, hs1]
        rw [hlow2 _ (by omega), hlow2 _ (by omega), hlow2 _ (by omega), hlow2 _ (by omega)]
      | succ s =>
        have hidx : counter + m.cols + s * m.cols + t = counter + (s + 1) * m.cols + t := by
          rw [Nat.succ_mul]; omega
        have h1 := hcell2 s t p (by omega) ht (by rw [hidx]; exact hp)
        rw [← h1]
        congr 1
        omega

/-- Whenever both flat vectors hold at least `width * height` elements the two
transfer loops run to completion, and cell `(r, c)` of each matrix then holds
element `r * width + c` of the corresponding vector. -/
theorem assemble_spec (width height : Nat) (rpm : List XYZ) (rgb : List RGBA)
    (garbageF : Nat → Float32) (garbageB : Nat → Nat)
    (hp : width * height ≤ rpm.length) (hc : width * height ≤ rgb.length) :
    ∃ coordinateMatrix colorMatrix,
      assemble width height rpm rgb garbageF garbageB = some (coordinateMatrix, colorMatrix) ∧
      coordinateMatrix.rows = height ∧ coordinateMatrix.cols = width ∧
      colorMatrix.rows = height ∧ colorMatrix.cols = width ∧
      colorMatrix.step = width * 4 ∧
      ∀ r c, r < height → c < width →
        (∀ p, rpm[r * width + c]? = some p →
          coordinateMatrix.atVec3f r c = Vec3f.mk p.x p.y p.z) ∧
        (∀ q, rgb[r * width + c]? = some q →
          colorMatrix.atVec4b r c = Vec4b.mk q.r q.g q.b q.a) := by
  have hwh : height * width = width * height := Nat.mul_comm height width
  obtain ⟨m1, hrun1, hr1, hc1, -, -, hcell1⟩ :=
    xyzOuter_spec rpm height 0 (Mat.create height width 6 garbageF) 0
      (by simp only [Mat.create]; omega) (by simp only [Mat.create]; omega)
  obtain ⟨m2, hrun2, hr2, hc2, hs2, -, hcell2⟩ :=
    rgbaOuter_spec rgb height 0 (Mat.create height width 4 garbageB) 0
      (by simp only [Mat.create]; omega) (by simp only [Mat.create]; omega)
  refine ⟨m1, m2, ?_, hr1, hc1, hr2, hc2, hs2, ?_⟩
  · simp only [assemble]
    have e1 : (Mat.create height width 6 garbageF).rows = height := rfl
    have e2 : (Mat.create height width 4 garbageB).rows = height := rfl
    rw [e1, e2, hrun1, hrun2]
  · intro r c hr hcw
    constructor
    · intro p hp1
      have := hcell1 r c p hr hcw (by simpa [Mat.create] using hp1)
      simpa using this
    · intro q hq1
      have := hcell2 r c q hr hcw (by simpa [Mat.create] using hq1)
      simpa using this

/-! ## Facts about the image routines -/

theorem at8u_ofPixels (rows cols : Nat) (f : Nat → Nat → Nat) (i j : Nat) (hj : j < cols) :
    (Mat.ofPixels rows cols f).at8u i j = f i j := by
  have hpos : 0 < cols := by omega
  have hdiv : (i * cols + j) / cols = i := by
    rw [Nat.mul_comm, Nat.mul_add_div hpos, Nat.div_eq_of_lt hj, Nat.add_zero]
  have hmod : (i * cols + j) % cols = j := by
    rw [Nat.mul_comm, Nat.mul_add_mod, Nat.mod_eq_of_lt hj]
  simp only [Mat.at8u, Mat.ofPixels, hdiv, hmod]

theorem threshBinary_60 (v : Nat) : threshBinary 60 255 v = if v ≤ 60 then 0 else 255 := by
  unfold threshBinary
  by_cases h : v ≤ 60
  · rw [if_pos h, if_neg (by omega)]
  · rw [if_neg h, if_pos (by omega)]

theorem at8u_threshold (src : Mat Nat) (thresh maxval r c : Nat) (hc : c < src.cols) :
    (threshold src thresh maxval).at8u r c = threshBinary thresh maxval (src.at8u r c) :=
  at8u_ofPixels _ _ _ _ _ hc

theorem fillRegion_value (img : Mat Nat) (val0 : Nat) :
    ∀ (k : Nat) (region : List Point),
      (∀ p ∈ region, img.at8u p.y p.x = val0) →
      ∀ p ∈ fillRegion img val0 k region, img.at8u p.y p.x = val0 := by
  intro k
  induction k with
  | zero => intro region h p hp; exact h p hp
  | succ k ih =>
    intro region h p hp
    refine ih (growRegion img val0 region) ?_ p hp
    intro q hq
    simp only [growRegion, List.mem_append, List.mem_filter, Bool.and_eq_true,
      beq_iff_eq] at hq
    rcases hq with hq | ⟨-, ⟨-, hv⟩, -⟩
    · exact h q hq
    · exact hv

/-- Flood fill with the value the seed already has changes no pixel. -/
theorem floodFill_same_value (img : Mat Nat) (seed : Point)
    (hx : seed.x < img.cols) (hy : seed.y < img.rows) :
    ∃ filled, floodFill img seed (img.at8u seed.y seed.x) = .ok filled ∧
      filled.rows = img.rows ∧ filled.cols = img.cols ∧
      ∀ r c, c < img.cols → filled.at8u r c = img.at8u r c := by
  refine ⟨_, if_pos ⟨hx, hy⟩, rfl, rfl, ?_⟩
  intro r c hc
  rw [at8u_ofPixels _ _ _ _ _ hc]
  split
  · next hmem =>
    have hin : Point.mk c r ∈
        fillRegion img (img.at8u seed.y seed.x) (img.rows * img.cols) [seed] := by
      simpa using hmem
    have := fillRegion_value img (img.at8u seed.y seed.x) (img.rows * img.cols) [seed]
      (by intro p hp; simp only [List.mem_singleton] at hp; rw [hp]) _ hin
    exact this.symm
  · rfl

/-! ## Facts about the selection loop and the output loop -/

/-- Loop invariant of the largest-contour loop: `pre` are the contours already
visited, `suf` those still to come. -/
theorem largestContourLoop_inv (area : List Point → ℚ) :
    ∀ (suf pre : List (List Point)) (la : ℚ) (li : Nat),
      (∀ c ∈ pre, area c ≤ la) →
      ((la = 0 ∧ li = 0) ∨
        (0 < la ∧ (∃ c, pre[li]? = some c ∧ area c = la) ∧
          ∀ j c, j < li → pre[j]? = some c → area c < la)) →
      (∀ c ∈ pre ++ suf, area c ≤ (largestContourLoop area suf pre.length (la, li)).1) ∧
      (((largestContourLoop area suf pre.length (la, li)).1 = 0 ∧
          (largestContourLoop area suf pre.length (la, li)).2 = 0) ∨
        (0 < (largestContourLoop area suf pre.length (la, li)).1 ∧
          (∃ c, (pre ++ suf)[(largestContourLoop area suf pre.length (la, li)).2]? = some c ∧
            area c = (largestContourLoop area suf pre.length (la, li)).1) ∧
          ∀ j c, j < (largestContourLoop area suf pre.length (la, li)).2 →
            (pre ++ suf)[j]? = some c →
            area c < (largestContourLoop area suf pre.length (la, li)).1)) := by
  intro suf
  induction suf with
  | nil =>
    intro pre la li hmax hsel
    simp only [largestContourLoop, List.append_nil]
    exact ⟨hmax, hsel⟩
  | cons c rest ih =>
    intro pre la li hmax hsel
    have hla : 0 ≤ la := by
      rcases hsel with ⟨h, -⟩ | ⟨h, -⟩
      · exact le_of_eq h.symm
      · exact le_of_lt h
    have happ : pre ++ c :: rest = (pre ++ [c]) ++ rest := by simp
    have hlen : (pre ++ [c]).length = pre.length + 1 := by simp
    by_cases hgt : area c > la
    · have hstep : largestContourLoop area (c :: rest) pre.length (la, li)
          = largestContourLoop area rest (pre ++ [c]).length (area c, pre.length) := by
        rw [hlen]; simp only [largestContourLoop, if_pos hgt]
      rw [hstep, happ]
      apply ih
      · intro d hd
        rcases List.mem_append.mp hd with hd | hd
        · exact le_of_lt (lt_of_le_of_lt (hmax d hd) hgt)
        · rw [List.mem_singleton.mp hd]
      · right
        refine ⟨lt_of_le_of_lt hla hgt, ⟨c, List.getElem?_concat_length pre c, rfl⟩, ?_⟩
        intro j d hj hd
        rw [List.getElem?_append_left hj] at hd
        exact lt_of_le_of_lt (hmax d (List.getElem?_mem hd)) hgt
    · have hstep : largestContourLoop area (c :: rest) pre.length (la, li)
          = largestContourLoop area rest (pre ++ [c]).length (la, li) := by
        rw [hlen]; simp only [largestContourLoop, if_neg hgt]
      rw [hstep, happ]
      apply ih
      · intro d hd
        rcases List.mem_append.mp hd with hd | hd
        · exact hmax d hd
        · rw [List.mem_singleton.mp hd]; exact le_of_not_lt hgt
      · rcases hsel with h | ⟨hpos, ⟨d, hd, hda⟩, hearlier⟩
        · exact Or.inl h
        · right
          have hli : li < pre.length := by
            by_contra hcon
            rw [List.getElem?_eq_none (by omega)] at hd
            exact Option.noConfusion hd
          refine ⟨hpos, ⟨d, ?_, hda⟩, ?_⟩
          · rw [List.getElem?_append_left hli]; exact hd
          · intro j e hj he
            rw [List.getElem?_append_left (by omega)] at he
            exact hearlier j e hj he

/-- What the selection loop leaves in `largestIndex`, for non-negative areas. -/
theorem largestIndex_spec (area : List Point → ℚ) (contours : List (List Point))
    (hne : contours ≠ []) (hnonneg : ∀ c, 0 ≤ area c) :
    ∃ sel, contours[largestIndex area contours]? = some sel ∧
      (∀ c ∈ contours, area c ≤ area sel) ∧
      (∀ j c, j < largestIndex area contours → contours[j]? = some c → area c < area sel) ∧
      ((∀ c ∈ contours, area c = 0) → largestIndex area contours = 0) := by
  have h := largestContourLoop_inv area contours [] 0 0
    (by intro c hc; exact absurd hc (List.not_mem_nil c)) (Or.inl ⟨rfl, rfl⟩)
  simp only [List.length_nil, List.nil_append] at h
  obtain ⟨hmax, hsel⟩ := h
  unfold largestIndex
  rcases hsel with ⟨h0, hi0⟩ | ⟨hpos, ⟨sel, hsel, hsa⟩, hearlier⟩
  · obtain ⟨c0, rest, rfl⟩ := List.exists_cons_of_ne_nil hne
    refine ⟨c0, by rw [hi0]; exact List.getElem?_cons_zero, ?_, ?_, fun _ => hi0⟩
    · intro c hc
      have h1 := hmax c hc
      rw [h0] at h1
      exact le_trans h1 (hnonneg c0)
    · intro j c hj
      rw [hi0] at hj
      exact absurd hj (Nat.not_lt_zero j)
  · refine ⟨sel, hsel, ?_, ?_, ?_⟩
    · intro c hc; rw [hsa]; exact hmax c hc
    · intro j c hj hc; rw [hsa]; exact hearlier j c hj hc
    · intro hzero
      have := hzero sel (List.getElem?_mem hsel)
      rw [hsa] at this
      exact absurd this (ne_of_gt hpos)

theorem shoelaceArea_nonneg (c : List Point) : 0 ≤ shoelaceArea c := by
  unfold shoelaceArea
  split
  · exact le_refl 0
  · exact div_nonneg (abs_nonneg _) (by norm_num)

theorem writeContourPoints_eq (m : Mat Float32) :
    ∀ (contour : List Point) (outfile : List OutItem),
      writeContourPoints m contour outfile
        = outfile ++ (boundaryPointSet m contour).flatMap pointLine := by
  intro contour
  induction contour with
  | nil => intro outfile; simp [writeContourPoints, boundaryPointSet]
  | cons p rest ih =>
    intro outfile
    unfold writeContourPoints
    by_cases hnan : isnan (m.atVec3f p.y p.x).v0 = true
    · simp only [hnan, Bool.not_true, Bool.false_eq_true, if_false]
      rw [ih]
      simp [boundaryPointSet, List.filter_cons, hnan]
    · have hv : isnan (m.atVec3f p.y p.x).v0 = false := by simpa using hnan
      simp only [hv, Bool.not_false, if_true]
      rw [ih]
      simp [boundaryPointSet, List.filter_cons, hv, pointLine]

theorem pointCount_lines (vs : List Vec3f) :
    pointCount (vs.flatMap pointLine) = vs.length := by
  induction vs with
  | nil => rfl
  | cons v rest ih =>
    unfold pointCount at ih ⊢
    rw [List.flatMap_cons, List.count_append, ih]
    simp [pointLine, List.count_cons]
    omega

/-! ## The claims -/

/-- C1. For every non-empty list of contours with non-negative areas, the
selection loop ends with `largestIndex` a valid index of the list, and the
contour at that index has an area greater than or equal to that of every
contour of the list. -/
theorem largest_contour_is_maximal (contourArea : List Point → ℚ)
    (contours : List (List Point)) (hne : contours ≠ [])
    (hnonneg : ∀ c, 0 ≤ contourArea c) :
    largestIndex contourArea contours < contours.length ∧
    ∃ sel, contours[largestIndex contourArea contours]? = some sel ∧
      ∀ c ∈ contours, contourArea c ≤ contourArea sel := by
  obtain ⟨sel, hsel, hmax, -, -⟩ := largestIndex_spec contourArea contours hne hnonneg
  refine ⟨?_, sel, hsel, hmax⟩
  by_contra hcon
  rw [List.getElem?_eq_none (by omega)] at hsel
  exact Option.noConfusion hsel

/-- C1 at the list `[unitSquare, bigSquare]` with the shoelace area. -/
theorem largest_contour_is_maximal_witness :
    [unitSquare, bigSquare] ≠ [] ∧ (∀ c, 0 ≤ shoelaceArea c) ∧
    (largestIndex shoelaceArea [unitSquare, bigSquare] < [unitSquare, bigSquare].length ∧
      ∃ sel, [unitSquare, bigSquare][largestIndex shoelaceArea [unitSquare, bigSquare]]?
          = some sel ∧
        ∀ c ∈ [unitSquare, bigSquare], shoelaceArea c ≤ shoelaceArea sel) :=
  ⟨List.cons_ne_nil _ _, shoelaceArea_nonneg,
    largest_contour_is_maximal shoelaceArea [unitSquare, bigSquare] (List.cons_ne_nil _ _)
      shoelaceArea_nonneg⟩

/-- C2. For every non-empty list of contours with non-negative areas, the
selected index is the smallest index whose area equals the maximum area of the
list: the selected contour has the maximum area, every index holding a contour
of the same area is at or after the selected one, and when all areas are 0 the
selected index is 0. -/
theorem largest_contour_first_wins (contourArea : List Point → ℚ)
    (contours : List (List Point)) (hne : contours ≠ [])
    (hnonneg : ∀ c, 0 ≤ contourArea c) :
    ∃ sel, contours[largestIndex contourArea contours]? = some sel ∧
      (∀ c ∈ contours, contourArea c ≤ contourArea sel) ∧
      (∀ j c, contours[j]? = some c → contourArea c = contourArea sel →
        largestIndex contourArea contours ≤ j) ∧
      ((∀ c ∈ contours, contourArea c = 0) → largestIndex contourArea contours = 0) := by
  obtain ⟨sel, hsel, hmax, hearlier, hzero⟩ :=
    largestIndex_spec contourArea contours hne hnonneg
  refine ⟨sel, hsel, hmax, ?_, hzero⟩
  intro j c hc heq
  by_contra hlt
  exact absurd heq (ne_of_lt (hearlier j c (by omega) hc))

/-- C2 at a list in which two contours tie for the largest area. -/
theorem largest_contour_first_wins_witness :
    [unitSquare, bigSquare, bigSquareRev] ≠ [] ∧ (∀ c, 0 ≤ shoelaceArea c) ∧
    ∃ sel, [unitSquare, bigSquare, bigSquareRev][largestIndex shoelaceArea
          [unitSquare, bigSquare, bigSquareRev]]? = some sel ∧
      (∀ c ∈ [unitSquare, bigSquare, bigSquareRev], shoelaceArea c ≤ shoelaceArea sel) ∧
      (∀ j c, [unitSquare, bigSquare, bigSquareRev][j]? = some c →
        shoelaceArea c = shoelaceArea sel →
        largestIndex shoelaceArea [unitSquare, bigSquare, bigSquareRev] ≤ j) ∧
      ((∀ c ∈ [unitSquare, bigSquare, bigSquareRev], shoelaceArea c = 0) →
        largestIndex shoelaceArea [unitSquare, bigSquare, bigSquareRev] = 0) :=
  ⟨List.cons_ne_nil _ _, shoelaceArea_nonneg,
    largest_contour_first_wins shoelaceArea [unitSquare, bigSquare, bigSquareRev]
      (List.cons_ne_nil _ _) shoelaceArea_nonneg⟩

/-- C3. For every contour and every position matrix (any pattern of NaN
entries), the number of boundary points written is at most the number of
contour pixels, with equality if and only if no contour pixel maps to an
entry carrying the no-depth sentinel, i.e. a NaN x-component. -/
theorem boundary_points_le_contour (coordinateMatrix : Mat Float32) (contour : List Point) :
    pointCount (writeContourPoints coordinateMatrix contour []) ≤ contour.length ∧
    (pointCount (writeContourPoints coordinateMatrix contour []) = contour.length ↔
      ∀ p ∈ contour, isnan (coordinateMatrix.atVec3f p.y p.x).v0 = false) := by
  rw [writeContourPoints_eq, List.nil_append, pointCount_lines]
  unfold boundaryPointSet
  constructor
  · exact le_trans (List.length_filter_le _ _) (le_of_eq (List.length_map _ _))
  · have hlen : contour.length
        = (contour.map fun p => coordinateMatrix.atVec3f p.y p.x).length :=
      (List.length_map _ _).symm
    rw [hlen, List.filter_length_eq_length]
    simp

/-- C3 at a two-pixel contour one of whose entries has a NaN x-component. -/
theorem boundary_points_le_contour_witness :
    pointCount (writeContourPoints halfValid twoPixels []) ≤ twoPixels.length ∧
    (pointCount (writeContourPoints halfValid twoPixels []) = twoPixels.length ↔
      ∀ p ∈ twoPixels, isnan (halfValid.atVec3f p.y p.x).v0 = false) :=
  boundary_points_le_contour halfValid twoPixels

/-- C4. For every contour and position matrix, what is written to
`contour_points.txt` is, line by line, the sequence of matrix entries at
`(p.y, p.x)` for the contour pixels `p` in traversal order, keeping exactly
the pixels whose x-component is not NaN; a pixel with a valid x-component is
kept whatever its y and z components are. -/
theorem contour_points_content (coordinateMatrix : Mat Float32) (contour : List Point) :
    writeContourPoints coordinateMatrix contour []
      = ((contour.filter fun p => !isnan (coordinateMatrix.atVec3f p.y p.x).v0).map
          fun p => coordinateMatrix.atVec3f p.y p.x).flatMap pointLine ∧
    writeContourPoints coordinateMatrix contour []
      = (boundaryPointSet coordinateMatrix contour).flatMap pointLine ∧
    ∀ p ∈ contour, (coordinateMatrix.atVec3f p.y p.x ∈ boundaryPointSet coordinateMatrix contour
      ↔ isnan (coordinateMatrix.atVec3f p.y p.x).v0 = false) := by
  refine ⟨?_, ?_, ?_⟩
  · rw [writeContourPoints_eq, List.nil_append]
    unfold boundaryPointSet
    rw [List.filter_map]
    rfl
  · rw [writeContourPoints_eq, List.nil_append]
  · intro p hp
    unfold boundaryPointSet
    simp only [List.mem_filter, List.mem_map, Bool.not_eq_true']
    constructor
    · intro h; exact h.2
    · intro h; exact ⟨⟨p, hp, rfl⟩, h⟩

/-- C4 at a two-pixel contour one of whose entries has a NaN x-component. -/
theorem contour_points_content_witness :
    writeContourPoints halfValid twoPixels []
      = ((twoPixels.filter fun p => !isnan (halfValid.atVec3f p.y p.x).v0).map
          fun p => halfValid.atVec3f p.y p.x).flatMap pointLine ∧
    writeContourPoints halfValid twoPixels []
      = (boundaryPointSet halfValid twoPixels).flatMap pointLine ∧
    ∀ p ∈ twoPixels, (halfValid.atVec3f p.y p.x ∈ boundaryPointSet halfValid twoPixels
      ↔ isnan (halfValid.atVec3f p.y p.x).v0 = false) :=
  contour_points_content halfValid twoPixels

/-- C5. For every width and height and every flat position and colour
sequence of length `width * height`, both assembled matrices have `height`
rows and `width` columns, and cell `(r, c)` of each holds element
`r * width + c` of the corresponding flat sequence. -/
theorem assembler_indexing (width height : Nat) (renderPointMap : List XYZ)
    (rgbData : List RGBA) (garbageF : Nat → Float32) (garbageB : Nat → Nat)
    (hp : renderPointMap.length = width * height)
    (hc : rgbData.length = width * height) :
    ∃ coordinateMatrix colorMatrix,
      assemble width height renderPointMap rgbData garbageF garbageB
        = some (coordinateMatrix, colorMatrix) ∧
      coordinateMatrix.rows = height ∧ coordinateMatrix.cols = width ∧
      colorMatrix.rows = height ∧ colorMatrix.cols = width ∧
      ∀ r c, r < height → c < width →
        ∃ p q, renderPointMap[r * width + c]? = some p ∧
          rgbData[r * width + c]? = some q ∧
          coordinateMatrix.atVec3f r c = Vec3f.mk p.x p.y p.z ∧
          colorMatrix.atVec4b r c = Vec4b.mk q.r q.g q.b q.a := by
  obtain ⟨m1, m2, hrun, hr1, hc1, hr2, hc2, -, hcell⟩ :=
    assemble_spec width height renderPointMap rgbData garbageF garbageB
      (le_of_eq hp.symm) (le_of_eq hc.symm)
  refine ⟨m1, m2, hrun, hr1, hc1, hr2, hc2, ?_⟩
  intro r c hr hcw
  have hidx : r * width + c < width * height := by
    have h1 : (r + 1) * width ≤ height * width := Nat.mul_le_mul_right width hr
    rw [Nat.succ_mul] at h1
    rw [Nat.mul_comm width height]
    omega
  have hi1 : r * width + c < renderPointMap.length := by rw [hp]; exact hidx
  have hi2 : r * width + c < rgbData.length := by rw [hc]; exact hidx
  refine ⟨renderPointMap[r * width + c], rgbData[r * width + c],
    List.getElem?_eq_getElem hi1, List.getElem?_eq_getElem hi2, ?_, ?_⟩
  · exact (hcell r c hr hcw).1 _ (List.getElem?_eq_getElem hi1)
  · exact (hcell r c hr hcw).2 _ (List.getElem?_eq_getElem hi2)

/-- C5 at a 2x1 grid. -/
theorem assembler_indexing_witness :
    [XYZ.mk oneF oneF oneF, XYZ.mk nanF nanF nanF].length = 2 * 1 ∧
    [RGBA.mk 1 2 3 4, RGBA.mk 5 6 7 8].length = 2 * 1 ∧
    ∃ coordinateMatrix colorMatrix,
      assemble 2 1 [XYZ.mk oneF oneF oneF, XYZ.mk nanF nanF nanF]
          [RGBA.mk 1 2 3 4, RGBA.mk 5 6 7 8] (fun _ => twoF) (fun _ => 0)
        = some (coordinateMatrix, colorMatrix) ∧
      coordinateMatrix.rows = 1 ∧ coordinateMatrix.cols = 2 ∧
      colorMatrix.rows = 1 ∧ colorMatrix.cols = 2 ∧
      ∀ r c, r < 1 → c < 2 →
        ∃ p q, [XYZ.mk oneF oneF oneF, XYZ.mk nanF nanF nanF][r * 2 + c]? = some p ∧
          [RGBA.mk 1 2 3 4, RGBA.mk 5 6 7 8][r * 2 + c]? = some q ∧
          coordinateMatrix.atVec3f r c = Vec3f.mk p.x p.y p.z ∧
          colorMatrix.atVec4b r c = Vec4b.mk q.r q.g q.b q.a :=
  ⟨rfl, rfl, assembler_indexing 2 1 _ _ _ _ rfl rfl⟩

/-- C6, as stated, fails. Intensity 0 is at most 60, yet the threshold call
gives 0 and not 255; intensity 61 exceeds 60, yet the call gives 255 and not 0. -/
theorem threshold_polarity_counterexample :
    ((0 : Nat) ≤ 60 ∧ threshBinary 60 255 0 = 0 ∧ threshBinary 60 255 0 ≠ 255) ∧
    ((61 : Nat) > 60 ∧ threshBinary 60 255 61 = 255 ∧ threshBinary 60 255 61 ≠ 0) ∧
    (threshold (Mat.ofPixels 1 1 fun _ _ => 0) 60 255).at8u 0 0 = 0 := by
  decide

/-- C6, amended. For every smoothed intensity, the threshold call with cutoff
60 gives the minimal value 0 where the intensity is at most 60 and the maximal
value 255 where it exceeds 60. -/
theorem threshold_polarity (src : Mat Nat) (r c : Nat) (hc : c < src.cols) :
    (threshold src 60 255).at8u r c = threshBinary 60 255 (src.at8u r c) ∧
    (src.at8u r c ≤ 60 → (threshold src 60 255).at8u r c = 0) ∧
    (60 < src.at8u r c → (threshold src 60 255).at8u r c = 255) := by
  rw [at8u_threshold src 60 255 r c hc, threshBinary_60]
  refine ⟨rfl, ?_, ?_⟩
  · intro hle; rw [if_pos hle]
  · intro hgt; rw [if_neg (by omega)]

/-- C6, amended, at pixel `(0, 1)` of `lightCorner` (intensity 10). -/
theorem threshold_polarity_witness :
    1 < lightCorner.cols ∧
    (threshold lightCorner 60 255).at8u 0 1 = threshBinary 60 255 (lightCorner.at8u 0 1) ∧
    (lightCorner.at8u 0 1 ≤ 60 → (threshold lightCorner 60 255).at8u 0 1 = 0) ∧
    (60 < lightCorner.at8u 0 1 → (threshold lightCorner 60 255).at8u 0 1 = 255) :=
  ⟨by decide, threshold_polarity lightCorner 0 1 (by decide)⟩

/-- C7. For every colour image, the mask produced by grayscale conversion, 3x3
blur and thresholding has the dimensions of the input, and every pixel of it
is 0 or 255. -/
theorem binarizer_two_valued (colorMatrix : Mat Nat) :
    (binarize colorMatrix).rows = colorMatrix.rows ∧
    (binarize colorMatrix).cols = colorMatrix.cols ∧
    ∀ r c, r < colorMatrix.rows → c < colorMatrix.cols →
      (binarize colorMatrix).at8u r c = 0 ∨ (binarize colorMatrix).at8u r c = 255 := by
  refine ⟨rfl, rfl, ?_⟩
  intro r c _ hc
  have h : (binarize colorMatrix).at8u r c
      = threshBinary 60 255 ((blur3x3 (cvtColorRGB2GRAY colorMatrix)).at8u r c) :=
    at8u_threshold (blur3x3 (cvtColorRGB2GRAY colorMatrix)) 60 255 r c hc
  rw [h, threshBinary_60]
  split
  · exact Or.inl rfl
  · exact Or.inr rfl

/-- C7 at the white 1x1 image. -/
theorem binarizer_two_valued_witness :
    0 < whitePixel.rows ∧ 0 < whitePixel.cols ∧
    ((binarize whitePixel).at8u 0 0 = 0 ∨ (binarize whitePixel).at8u 0 0 = 255) :=
  ⟨by decide, by decide, (binarizer_two_valued whitePixel).2.2 0 0 (by decide) (by decide)⟩

/-- C8. Whenever the list of contours extracted from the normalized mask is
empty, the run ends at `contours.at(largestIndex)` with `std::out_of_range`
(the no-contour failure), which no handler of `main` catches, so the process
is terminated; the files created are the four diagnostic images only, neither
`contour_points.txt` nor `contoured_wound.jpg`. -/
theorem no_contour_terminates (lib : Lib) (colorMatrix : Mat Nat)
    (coordinateMatrix : Mat Float32)
    (hempty : (normalizedMask lib colorMatrix).map lib.findContours = .ok []) :
    (contourPipeline lib colorMatrix coordinateMatrix).outcome = .error Exn.outOfRange ∧
    mainExit (contourPipeline lib colorMatrix coordinateMatrix).outcome
      = Exit.terminated Exn.outOfRange ∧
    (contourPipeline lib colorMatrix coordinateMatrix).files.map Prod.fst
      = ["gray_image.jpg", "threshold_image.jpg", "threshold_image_inverted.jpg",
         "morph_closing_image.jpg"] ∧
    "contour_points.txt" ∉ (contourPipeline lib colorMatrix coordinateMatrix).files.map Prod.fst ∧
    "contoured_wound.jpg" ∉ (contourPipeline lib colorMatrix coordinateMatrix).files.map Prod.fst := by
  unfold normalizedMask binarize at hempty
  cases hff : floodFill (threshold (blur3x3 (cvtColorRGB2GRAY colorMatrix)) 60 255)
      (Point.mk 0 0) 255 with
  | error e =>
    rw [hff] at hempty
    exact Except.noConfusion hempty
  | ok filled =>
    rw [hff] at hempty
    have hnil : lib.findContours (lib.morphologyClose (bitwise_not filled)) = [] := by
      simpa [Except.map] using hempty
    simp only [contourPipeline, hff, hnil, List.getElem?_nil]
    simp [mainExit, caughtByMain]

/-- C8 for a white 1x1 image and a contour finder that finds nothing. -/
theorem no_contour_terminates_witness :
    (normalizedMask emptyLib whitePixel).map emptyLib.findContours = .ok [] ∧
    (contourPipeline emptyLib whitePixel nanPixel).outcome = .error Exn.outOfRange ∧
    mainExit (contourPipeline emptyLib whitePixel nanPixel).outcome
      = Exit.terminated Exn.outOfRange ∧
    (contourPipeline emptyLib whitePixel nanPixel).files.map Prod.fst
      = ["gray_image.jpg", "threshold_image.jpg", "threshold_image_inverted.jpg",
         "morph_closing_image.jpg"] ∧
    "contour_points.txt" ∉ (contourPipeline emptyLib whitePixel nanPixel).files.map Prod.fst ∧
    "contoured_wound.jpg" ∉ (contourPipeline emptyLib whitePixel nanPixel).files.map Prod.fst :=
  ⟨rfl, no_contour_terminates emptyLib whitePixel nanPixel rfl⟩

/-- C9, as stated, fails. With width 1 and height 1, a position sequence of
two elements and a colour sequence of one element (the position length differs
from `width * height` and from the colour length), the assembler does not fail:
it writes cell `(0,0)` of both matrices from the first elements. -/
theorem dimension_mismatch_counterexample :
    [XYZ.mk oneF oneF oneF, XYZ.mk twoF twoF twoF].length ≠ 1 * 1 ∧
    [XYZ.mk oneF oneF oneF, XYZ.mk twoF twoF twoF].length ≠ [RGBA.mk 1 2 3 4].length ∧
    (assemble 1 1 [XYZ.mk oneF oneF oneF, XYZ.mk twoF twoF twoF] [RGBA.mk 1 2 3 4]
        (fun _ => nanF) (fun _ => 0)).map
        (fun g => (g.1.atVec3f 0 0, g.2.atVec4b 0 0))
      = some (Vec3f.mk oneF oneF oneF, Vec4b.mk 1 2 3 4) := by
  decide

/-- C9, amended. The assembler checks no length: whenever both flat sequences
hold at least `width * height` elements, whatever their lengths, the transfer
loops run to completion, both matrices get `height` rows and `width` columns,
and cell `(r, c)` holds element `r * width + c`; surplus elements are ignored. -/
theorem assembler_no_length_check (width height : Nat) (renderPointMap : List XYZ)
    (rgbData : List RGBA) (garbageF : Nat → Float32) (garbageB : Nat → Nat)
    (hp : width * height ≤ renderPointMap.length)
    (hc : width * height ≤ rgbData.length) :
    ∃ coordinateMatrix colorMatrix,
      assemble width height renderPointMap rgbData garbageF garbageB
        = some (coordinateMatrix, colorMatrix) ∧
      coordinateMatrix.rows = height ∧ coordinateMatrix.cols = width ∧
      colorMatrix.rows = height ∧ colorMatrix.cols = width ∧
      ∀ r c, r < height → c < width →
        (∀ p, renderPointMap[r * width + c]? = some p →
          coordinateMatrix.atVec3f r c = Vec3f.mk p.x p.y p.z) ∧
        (∀ q, rgbData[r * width + c]? = some q →
          colorMatrix.atVec4b r c = Vec4b.mk q.r q.g q.b q.a) := by
  obtain ⟨m1, m2, hrun, hr1, hc1, hr2, hc2, -, hcell⟩ :=
    assemble_spec width height renderPointMap rgbData garbageF garbageB hp hc
  exact ⟨m1, m2, hrun, hr1, hc1, hr2, hc2, hcell⟩

/-- C9, amended, at the input of the counterexample. -/
theorem assembler_no_length_check_witness :
    1 * 1 ≤ [XYZ.mk oneF oneF oneF, XYZ.mk twoF twoF twoF].length ∧
    1 * 1 ≤ [RGBA.mk 1 2 3 4].length ∧
    ∃ coordinateMatrix colorMatrix,
      assemble 1 1 [XYZ.mk oneF oneF oneF, XYZ.mk twoF twoF twoF] [RGBA.mk 1 2 3 4]
          (fun _ => nanF) (fun _ => 0)
        = some (coordinateMatrix, colorMatrix) ∧
      coordinateMatrix.rows = 1 ∧ coordinateMatrix.cols = 1 ∧
      colorMatrix.rows = 1 ∧ colorMatrix.cols = 1 ∧
      ∀ r c, r < 1 → c < 1 →
        (∀ p, [XYZ.mk oneF oneF oneF, XYZ.mk twoF twoF twoF][r * 1 + c]? = some p →
          coordinateMatrix.atVec3f r c = Vec3f.mk p.x p.y p.z) ∧
        (∀ q, [RGBA.mk 1 2 3 4][r * 1 + c]? = some q →
          colorMatrix.atVec4b r c = Vec4b.mk q.r q.g q.b q.a) :=
  ⟨by decide, by decide, assembler_no_length_check 1 1 _ _ _ _ (by decide) (by decide)⟩

/-- C10. For every thresholded mask whose pixel `(0,0)` is 255, the flood fill
from seed `(0,0)` with new value 255 returns and leaves every pixel unchanged,
so after the inversion a pixel is 255 exactly when its smoothed intensity was
at most 60, and 0 otherwise. -/
theorem floodFill_light_corner (smoothed : Mat Nat)
    (hrows : 0 < smoothed.rows) (hcols : 0 < smoothed.cols)
    (hseed : (threshold smoothed 60 255).at8u 0 0 = 255) :
    ∃ filled, floodFill (threshold smoothed 60 255) (Point.mk 0 0) 255 = .ok filled ∧
      filled.rows = smoothed.rows ∧ filled.cols = smoothed.cols ∧
      (∀ r c, r < smoothed.rows → c < smoothed.cols →
        filled.at8u r c = (threshold smoothed 60 255).at8u r c) ∧
      (∀ r c, r < smoothed.rows → c < smoothed.cols →
        (bitwise_not filled).at8u r c = if smoothed.at8u r c ≤ 60 then 255 else 0) := by
  obtain ⟨filled, hrun, hr, hc, hsame⟩ :=
    floodFill_same_value (threshold smoothed 60 255) (Point.mk 0 0) hcols hrows
  have hseed1 : (threshold smoothed 60 255).at8u (Point.mk 0 0).y (Point.mk 0 0).x = 255 :=
    hseed
  rw [hseed1] at hrun
  have hc1 : filled.cols = smoothed.cols := hc
  refine ⟨filled, hrun, hr, hc, fun r c _ hcc => hsame r c hcc, ?_⟩
  intro r c _ hcc
  have hnot : (bitwise_not filled).at8u r c = 255 - filled.at8u r c % 256 :=
    at8u_ofPixels _ _ _ _ _ (by rw [hc1]; exact hcc)
  rw [hnot, hsame r c hcc, at8u_threshold smoothed 60 255 r c hcc, threshBinary_60]
  by_cases hle : smoothed.at8u r c ≤ 60
  · rw [if_pos hle, if_pos hle]
  · rw [if_neg hle, if_neg hle]

/-- C10 at the image `lightCorner`. -/
theorem floodFill_light_corner_witness :
    0 < lightCorner.rows ∧ 0 < lightCorner.cols ∧
    (threshold lightCorner 60 255).at8u 0 0 = 255 ∧
    ∃ filled, floodFill (threshold lightCorner 60 255) (Point.mk 0 0) 255 = .ok filled ∧
      filled.rows = lightCorner.rows ∧ filled.cols = lightCorner.cols ∧
      (∀ r c, r < lightCorner.rows → c < lightCorner.cols →
        filled.at8u r c = (threshold lightCorner 60 255).at8u r c) ∧
      (∀ r c, r < lightCorner.rows → c < lightCorner.cols →
        (bitwise_not filled).at8u r c = if lightCorner.at8u r c ≤ 60 then 255 else 0) :=
  ⟨by decide, by decide, by decide,
    floodFill_light_corner lightCorner (by decide) (by decide) (by decide)⟩

end RenderPM
